import Mathlib

/-!
Verification of the PseudoTV schedule engine and playout engine
(`pseudotv.py`) against its specification.

The Python source is shallowly embedded: dictionaries of video metadata
become structures, datetimes become integer numbers of seconds since an
epoch, XML programme elements become a `Programme` structure, and the
side-effecting parts (network fetches, the random generator, the cache
file) become explicit oracle parameters.
-/

namespace PseudoTV

/-- A fetched video entry (a yt-dlp info dictionary).  `duration` is in
seconds; `uploadDate` is the YYYYMMDD string; `isAd` models the
`is_ad` flag that `create_epg` sets on publicity-pool entries. -/
structure Video where
  id : String
  title : String
  description : String
  uploadDate : String
  duration : ℤ
  isAd : Bool
  deriving DecidableEq, Repr

/-- A programme element written into the EPG by
`generate_programme_elements`: channel id, start and stop instants
(seconds), title, description and the video id placed in the source URL. -/
structure Programme where
  channel : String
  start : ℤ
  stop : ℤ
  title : String
  description : String
  videoId : String
  deriving DecidableEq, Repr

/-! ## generate_programme_elements (pseudotv.py lines 161-193) -/

/-- `sum(item.get('duration', 0) for item in playlist)`. -/
def totalDurationSeconds (playlist : List Video) : ℤ :=
  (playlist.map (fun v => v.duration)).sum

/-- The programme element built for one playlist item starting at `t`.
Ads get the fixed Commercial Break title and description. -/
def mkProgramme (chan : String) (t : ℤ) (v : Video) : Programme :=
  { channel := chan
    start := t
    stop := t + v.duration
    title := if v.isAd then "Commercial Break" else v.title
    description := if v.isAd then "Commercials" else v.description
    videoId := v.id }

/-- The inner `for item in playlist` loop: items with duration 0 are
skipped (`continue`) and do not advance the clock; every other item emits
one programme and advances `current_time` by its duration.  Returns the
emitted programmes and the final `current_time`. -/
def emitPlaylistOnce (chan : String) : ℤ → List Video → List Programme × ℤ
  | t, [] => ([], t)
  | t, v :: vs =>
    if v.duration = 0 then emitPlaylistOnce chan t vs
    else
      let rest := emitPlaylistOnce chan (t + v.duration) vs
      (mkProgramme chan t v :: rest.1, rest.2)

/-- The outer `for _ in range(repeat_count)` loop. -/
def emitRepeats (chan : String) (playlist : List Video) : Nat → ℤ → List Programme
  | 0, _ => []
  | n + 1, t =>
    let once := emitPlaylistOnce chan t playlist
    once.1 ++ emitRepeats chan playlist n once.2

/-- `repeat_count = int(remaining_time_to_fill / total_duration_seconds) + 1`.
Both arguments are positive on the only path where it is used, so the
Python truncation is a floor. -/
def repeatCount (remaining total : ℤ) : ℤ :=
  remaining / total + 1

/-- `generate_programme_elements(root, channel_id, playlist, days,
start_offset_time)`.  `nowUtc` is `datetime.now(utc)` and `startOffset`
is `start_offset_time`, both in seconds; the horizon end is
`nowUtc + days*86400` and `remaining = end - startOffset`.  Returns the
programme elements appended to the root element. -/
def generate_programme_elements (chan : String) (playlist : List Video)
    (days : ℤ) (nowUtc startOffset : ℤ) : List Programme :=
  if playlist = [] then []
  else
    let total := totalDurationSeconds playlist
    if total = 0 then []
    else
      let remaining := (nowUtc + days * 86400) - startOffset
      if remaining ≤ 0 then []
      else emitRepeats chan playlist (repeatCount remaining total).toNat startOffset

lemma emitPlaylistOnce_length (chan : String) (t : ℤ) (l : List Video) :
    (emitPlaylistOnce chan t l).1.length
      = (l.filter (fun v => v.duration ≠ 0)).length := by
  induction l generalizing t with
  | nil => simp [emitPlaylistOnce]
  | cons v vs ih =>
    by_cases h : v.duration = 0
    · simp [emitPlaylistOnce, h, ih]
    · simp [emitPlaylistOnce, h, ih]

lemma emitRepeats_length (chan : String) (playlist : List Video) (n : Nat) (t : ℤ) :
    (emitRepeats chan playlist n t).length
      = n * (playlist.filter (fun v => v.duration ≠ 0)).length := by
  induction n generalizing t with
  | zero => simp [emitRepeats]
  | succ m ih =>
    simp [emitRepeats, ih, emitPlaylistOnce_length, Nat.succ_mul]
    ring

lemma totalDurationSeconds_nil : totalDurationSeconds [] = 0 := rfl

lemma floor_cast_div (R T : ℤ) (hT : 0 < T) : ⌊(R : ℚ) / (T : ℚ)⌋ = R / T := by
  have h2 : ((T.toNat : ℕ) : ℚ) = (T : ℚ) := by
    rw [← Int.cast_natCast, Int.toNat_of_nonneg hT.le]
  have h3 := Rat.floor_intCast_div_natCast R T.toNat
  rw [h2, Int.toNat_of_nonneg hT.le] at h3
  exact h3

lemma ceil_cast_div_of_not_dvd (R T : ℤ) (hT : 0 < T) (hdvd : ¬ T ∣ R) :
    ⌈(R : ℚ) / (T : ℚ)⌉ = R / T + 1 := by
  set x : ℚ := (R : ℚ) / (T : ℚ) with hx
  have hTne : (T : ℚ) ≠ 0 := by exact_mod_cast hT.ne.symm
  have hnotint : ∀ k : ℤ, x ≠ (k : ℚ) := by
    intro k hk
    apply hdvd
    refine ⟨k, ?_⟩
    have : (R : ℚ) = (T : ℚ) * (k : ℚ) := by
      field_simp [hx] at hk
      linarith [hk]
    exact_mod_cast this
  have hne : ((⌊x⌋ : ℤ) : ℚ) ≠ x := fun h => hnotint ⌊x⌋ h.symm
  have hlt : ((⌊x⌋ : ℤ) : ℚ) < x := lt_of_le_of_ne (Int.floor_le x) hne
  have h1 : ⌊x⌋ < ⌈x⌉ := Int.lt_ceil.mpr hlt
  have h2 : ⌈x⌉ ≤ ⌊x⌋ + 1 := Int.ceil_le_floor_add_one x
  have : ⌈x⌉ = ⌊x⌋ + 1 := by omega
  rw [this, floor_cast_div R T hT]

lemma ceil_cast_div_of_dvd (R T : ℤ) (hT : 0 < T) (hdvd : T ∣ R) :
    ⌈(R : ℚ) / (T : ℚ)⌉ = R / T := by
  obtain ⟨k, hk⟩ := hdvd
  have hTne : (T : ℚ) ≠ 0 := by exact_mod_cast hT.ne.symm
  have hx : (R : ℚ) / (T : ℚ) = (k : ℚ) := by
    rw [hk]; push_cast; field_simp
  rw [hx, Int.ceil_intCast, hk, Int.mul_ediv_cancel_left _ hT.ne.symm]

/-- C1 (amended).  With positive playlist duration `T` and positive
remaining horizon `R`, `generate_programme_elements` emits
`R / T + 1` (floor division plus one) repetitions of the playlist, each
repetition contributing one programme per nonzero-duration item.  This
count is never below `ceil(R / T)` (the horizon is covered), equals
`ceil(R / T)` exactly when `T` does not divide `R`, and is
`ceil(R / T) + 1` when `T` divides `R` — so the claimed count
`ceil(R / T)` is off by one exactly on exact multiples. -/
theorem C1_repeat_count_floor_plus_one (chan : String) (playlist : List Video)
    (days nowUtc startOffset R T : ℤ)
    (hTeq : T = totalDurationSeconds playlist)
    (hReq : R = nowUtc + days * 86400 - startOffset)
    (hT : 0 < T) (hR : 0 < R) :
    (generate_programme_elements chan playlist days nowUtc startOffset).length
        = (repeatCount R T).toNat * (playlist.filter (fun v => v.duration ≠ 0)).length
      ∧ repeatCount R T = R / T + 1
      ∧ ⌈(R : ℚ) / (T : ℚ)⌉ ≤ repeatCount R T
      ∧ (¬ T ∣ R → repeatCount R T = ⌈(R : ℚ) / (T : ℚ)⌉)
      ∧ (T ∣ R → repeatCount R T = ⌈(R : ℚ) / (T : ℚ)⌉ + 1) := by
  subst hTeq hReq
  refine ⟨?_, rfl, ?_, ?_, ?_⟩
  · have hnil : playlist ≠ [] := by
      intro h
      rw [h] at hT
      simp [totalDurationSeconds] at hT
    have hT0 : totalDurationSeconds playlist ≠ 0 := ne_of_gt hT
    have hR0 : ¬ (nowUtc + days * 86400 - startOffset ≤ 0) := not_le.mpr hR
    simp only [generate_programme_elements, hnil, if_false, hT0, hR0,
      ite_false, emitRepeats_length]
  · rw [repeatCount, ← floor_cast_div _ _ hT]
    exact Int.ceil_le_floor_add_one _
  · intro hdvd
    rw [repeatCount, ceil_cast_div_of_not_dvd _ _ hT hdvd]
  · intro hdvd
    rw [repeatCount, ceil_cast_div_of_dvd _ _ hT hdvd]

/-- A sample regular video of duration 3600 seconds. -/
def vidA : Video :=
  { id := "a", title := "t", description := "d", uploadDate := "20240101",
    duration := 3600, isAd := false }

/-- Witness for C1: playlist of one 3600-second video, remaining horizon
7201 seconds (days 0, now 0, start offset -7201). -/
theorem C1_repeat_count_witness :
    (generate_programme_elements "ch" [vidA] 0 0 (-7201)).length
        = (repeatCount 7201 3600).toNat * ([vidA].filter (fun v => v.duration ≠ 0)).length
      ∧ repeatCount 7201 3600 = 7201 / 3600 + 1
      ∧ ⌈((7201 : ℤ) : ℚ) / ((3600 : ℤ) : ℚ)⌉ ≤ repeatCount 7201 3600
      ∧ (¬ (3600 : ℤ) ∣ 7201 → repeatCount 7201 3600 = ⌈((7201 : ℤ) : ℚ) / ((3600 : ℤ) : ℚ)⌉)
      ∧ ((3600 : ℤ) ∣ 7201 → repeatCount 7201 3600 = ⌈((7201 : ℤ) : ℚ) / ((3600 : ℤ) : ℚ)⌉ + 1) :=
  C1_repeat_count_floor_plus_one "ch" [vidA] 0 0 (-7201) 7201 3600
    (by decide) (by decide) (by decide) (by decide)

/-- Counterexample to C1 as stated: with playlist duration 3600 s and a
remaining horizon of exactly 7200 s (days 0, now 0, start offset -7200)
the code emits 3 repetitions (3 programmes, one per repetition), while
the claim requires `ceil(7200 / 3600) = 2`. -/
theorem C1_counterexample :
    (generate_programme_elements "ch" [vidA] 0 0 (-7200)).length = 3
      ∧ ⌈((7200 : ℤ) : ℚ) / ((3600 : ℤ) : ℚ)⌉ = 2
      ∧ (3 : ℕ) ≠ 2 := by
  refine ⟨by decide, ?_, by decide⟩
  have h : ((7200 : ℤ) : ℚ) / ((3600 : ℤ) : ℚ) = ((2 : ℤ) : ℚ) := by norm_num
  rw [h, Int.ceil_intCast]

/-! ## Locating the active program (generate_stream, pseudotv.py lines 422-446)

The stream generator scans the channel's sorted program list once for a
program with `start_time <= now_utc < stop_time` (recording
`seek_time = now_utc - start_time`), and failing that scans again for the
first program with `start_time > now_utc` (with `seek_time = 0`); if both
scans fail the generator returns, producing an empty stream. -/

/-- The first scan (lines 426-432): first program with
`start <= now < stop`, paired with `seek = now - start`. -/
def findRunning (now : ℤ) : List Programme → Option (Programme × ℤ)
  | [] => none
  | p :: ps =>
    if p.start ≤ now ∧ now < p.stop then some (p, now - p.start)
    else findRunning now ps

/-- The second scan (lines 434-442): first program with `start > now`,
paired with `seek = 0`. -/
def findNext (now : ℤ) : List Programme → Option (Programme × ℤ)
  | [] => none
  | p :: ps => if now < p.start then some (p, 0) else findNext now ps

/-- The combined location step: `none` models the no-program case in
which `generate_stream` returns and the response body is empty. -/
def locateProgram (now : ℤ) (progs : List Programme) : Option (Programme × ℤ) :=
  match findRunning now progs with
  | some r => some r
  | none => findNext now progs

lemma findRunning_eq_none (now : ℤ) (l : List Programme)
    (h : ∀ p ∈ l, ¬ (p.start ≤ now ∧ now < p.stop)) : findRunning now l = none := by
  induction l with
  | nil => rfl
  | cons q qs ih =>
    have hq := h q (List.mem_cons_self q qs)
    simp only [findRunning, hq, if_false]
    exact ih (fun p hp => h p (List.mem_cons_of_mem q hp))

lemma findNext_eq_none (now : ℤ) (l : List Programme)
    (h : ∀ p ∈ l, ¬ now < p.start) : findNext now l = none := by
  induction l with
  | nil => rfl
  | cons q qs ih =>
    have hq := h q (List.mem_cons_self q qs)
    simp only [findNext, hq, if_false]
    exact ih (fun p hp => h p (List.mem_cons_of_mem q hp))

lemma findRunning_eq_of_mem (now : ℤ) (l : List Programme)
    (hnov : l.Pairwise (fun a b => a.stop ≤ b.start))
    (p : Programme) (hp : p ∈ l) (hact : p.start ≤ now ∧ now < p.stop) :
    findRunning now l = some (p, now - p.start) := by
  induction l with
  | nil => cases hp
  | cons q qs ih =>
    rcases List.mem_cons.mp hp with rfl | hmem
    · simp only [findRunning, hact, and_self, if_true]
    · have hqp : q.stop ≤ p.start := (List.pairwise_cons.mp hnov).1 p hmem
      have hqno : ¬ (q.start ≤ now ∧ now < q.stop) := by
        rintro ⟨_, hlt⟩
        exact absurd (lt_of_lt_of_le hlt (le_trans hqp hact.1)) (lt_irrefl now)
      simp only [findRunning, hqno, if_false]
      exact ih (List.pairwise_cons.mp hnov).2 hmem

lemma findNext_spec (now : ℤ) (l : List Programme)
    (hsort : l.Pairwise (fun a b => a.start ≤ b.start))
    (hex : ∃ p ∈ l, now < p.start) :
    ∃ p, findNext now l = some (p, 0) ∧ p ∈ l ∧ now < p.start ∧
      ∀ q ∈ l, now < q.start → p.start ≤ q.start := by
  induction l with
  | nil => exact absurd hex (by simp)
  | cons q qs ih =>
    by_cases hq : now < q.start
    · refine ⟨q, by simp [findNext, hq], List.mem_cons_self q qs, hq, ?_⟩
      intro r hr _
      rcases List.mem_cons.mp hr with rfl | hmem
      · exact le_refl _
      · exact (List.pairwise_cons.mp hsort).1 r hmem
    · have hex2 : ∃ p ∈ qs, now < p.start := by
        rcases hex with ⟨p, hp, hlt⟩
        rcases List.mem_cons.mp hp with rfl | hmem
        · exact absurd hlt hq
        · exact ⟨p, hmem, hlt⟩
      obtain ⟨p, heq, hmem, hlt, hmin⟩ := ih (List.pairwise_cons.mp hsort).2 hex2
      refine ⟨p, by simp [findNext, hq, heq], List.mem_cons_of_mem q hmem, hlt, ?_⟩
      intro r hr hrlt
      rcases List.mem_cons.mp hr with rfl | hmem2
      · exact absurd hrlt hq
      · exact hmin r hmem2 hrlt

/-- C5 (confirmed).  For a channel timeline sorted by start and with
non-overlapping programs, and for any instant `now`: any program with
`start <= now < stop` is the one located, with seek `now - start`; when
none is running, the located program is the earliest one with
`start > now`, with seek `0`; when neither exists, location yields `none`
(the NoProgramScheduled case: the generator returns and the stream is
empty). -/
theorem C5_locate_program (now : ℤ) (progs : List Programme)
    (hsort : progs.Pairwise (fun a b => a.start ≤ b.start))
    (hnov : progs.Pairwise (fun a b => a.stop ≤ b.start)) :
    (∀ p ∈ progs, p.start ≤ now ∧ now < p.stop →
        locateProgram now progs = some (p, now - p.start))
    ∧ ((∀ p ∈ progs, ¬ (p.start ≤ now ∧ now < p.stop)) →
        (∃ p ∈ progs, now < p.start) →
        ∃ p, locateProgram now progs = some (p, 0) ∧ p ∈ progs ∧ now < p.start ∧
          ∀ q ∈ progs, now < q.start → p.start ≤ q.start)
    ∧ ((∀ p ∈ progs, ¬ (p.start ≤ now ∧ now < p.stop)) →
        (∀ p ∈ progs, ¬ now < p.start) →
        locateProgram now progs = none) := by
  refine ⟨?_, ?_, ?_⟩
  · intro p hp hact
    unfold locateProgram
    rw [findRunning_eq_of_mem now progs hnov p hp hact]
  · intro hnone hex
    unfold locateProgram
    rw [findRunning_eq_none now progs hnone]
    exact findNext_spec now progs hsort hex
  · intro hnone hnofut
    unfold locateProgram
    rw [findRunning_eq_none now progs hnone]
    exact findNext_eq_none now progs hnofut

/-- Sample programmes for the locate witness. -/
def progP1 : Programme :=
  { channel := "ch", start := 0, stop := 10, title := "p1",
    description := "", videoId := "a" }

def progP2 : Programme :=
  { channel := "ch", start := 20, stop := 30, title := "p2",
    description := "", videoId := "b" }

/-- Witness for C5: at `now = 5` inside `progP1`, location returns
`progP1` with seek 5. -/
theorem C5_locate_program_witness :
    locateProgram 5 [progP1, progP2] = some (progP1, 5) :=
  (C5_locate_program 5 [progP1, progP2] (by decide) (by decide)).1
    progP1 (List.mem_cons_self _ _) (by decide)

/-! ## interleave_playlist (pseudotv.py lines 150-159)

`random.choice(publicity)` is modelled by an oracle `choose : Nat → Nat`
giving the random draw for the insertion made after the item with loop
index `i`; the draw is reduced mod the pool length so that every oracle
value designates a pool element, as `random.choice` does. -/

instance : Inhabited Video :=
  ⟨{ id := "", title := "", description := "", uploadDate := "",
     duration := 0, isAd := false }⟩

/-- The pool element selected by a draw `j`. -/
def pickPublicity (publicity : List Video) (j : Nat) : Video :=
  publicity.getD (j % publicity.length) default

/-- The `for i, program in enumerate(programs)` loop with loop counter
`i`.  For a positive slot count the Python test
`(i + 1) % programs_per_publicity == 0` is the test below with
`N = programs_per_publicity`; the inner `if publicity:` re-check is
always true on this path (the empty pool returned early) and is elided. -/
def interleaveGo (publicity : List Video) (N : Nat) (choose : Nat → Nat) :
    Nat → List Video → List Video
  | _, [] => []
  | i, p :: ps =>
    if (i + 1) % N = 0 then
      p :: pickPublicity publicity (choose i) :: interleaveGo publicity N choose (i + 1) ps
    else p :: interleaveGo publicity N choose (i + 1) ps

/-- `interleave_playlist(programs, publicity, programs_per_publicity)`. -/
def interleave_playlist (programs publicity : List Video) (n : ℤ)
    (choose : Nat → Nat) : List Video :=
  if publicity = [] ∨ n ≤ 0 then programs
  else interleaveGo publicity n.toNat choose 0 programs

/-- Modelled from the claim text, not from the code: chunk the regular
items into maximal groups of `n`, and append one chosen publicity item
after every complete group (none after a trailing incomplete group, so
no publicity item ever precedes the `n`-th regular item). -/
def specInsertEveryNth (publicity : List Video) (n : Nat) (choose : Nat → Nat)
    (i : Nat) (l : List Video) : List Video :=
  if h : n = 0 ∨ l.length < n then l
  else
    l.take n ++ pickPublicity publicity (choose (i + n - 1))
      :: specInsertEveryNth publicity n choose (i + n) (l.drop n)
termination_by l.length
decreasing_by
  push_neg at h
  rw [List.length_drop]
  omega

lemma interleaveGo_chunk (pub : List Video) (N : Nat) (choose : Nat → Nat)
    (hN : 0 < N) :
    ∀ (l : List Video) (k i : Nat), 0 < k → k ≤ N → (i + k) % N = 0 →
      (k ≤ l.length →
        interleaveGo pub N choose i l
          = l.take k ++ pickPublicity pub (choose (i + k - 1))
              :: interleaveGo pub N choose (i + k) (l.drop k))
      ∧ (l.length < k → interleaveGo pub N choose i l = l) := by
  intro l
  induction l with
  | nil =>
    intro k i hk _ _
    refine ⟨fun h => ?_, fun _ => rfl⟩
    simp at h
    omega
  | cons p ps ih =>
    intro k i hk hkN hmod
    obtain ⟨k', rfl⟩ : ∃ k', k = k' + 1 := ⟨k - 1, by omega⟩
    by_cases hk1 : k' = 0
    · subst hk1
      have hcond : (i + 1) % N = 0 := hmod
      refine ⟨fun _ => ?_, fun h => ?_⟩
      · simp only [interleaveGo, hcond, if_true, List.take_succ_cons,
          List.take_zero, List.drop_succ_cons, List.drop_zero]
        simp
      · simp at h
    · have hcond : ¬ ((i + 1) % N = 0) := by
        intro h
        have d1 : N ∣ (i + (k' + 1)) := Nat.dvd_of_mod_eq_zero hmod
        have d2 : N ∣ (i + 1) := Nat.dvd_of_mod_eq_zero h
        have hsub : (i + (k' + 1)) - (i + 1) = k' := by omega
        have d3 : N ∣ k' := by
          have := Nat.dvd_sub' d1 d2
          rwa [hsub] at this
        have : k' = 0 := Nat.eq_zero_of_dvd_of_lt d3 (by omega)
        exact hk1 this
      have hmod2 : (i + 1 + k') % N = 0 := by
        have : i + 1 + k' = i + (k' + 1) := by omega
        rw [this]
        exact hmod
      obtain ⟨ih1, ih2⟩ := ih k' (i + 1) (by omega) (by omega) hmod2
      refine ⟨fun hlen => ?_, fun hlen => ?_⟩
      · have hlen2 : k' ≤ ps.length := by
          simp at hlen
          omega
        simp only [interleaveGo, hcond, if_false, List.take_succ_cons,
          List.drop_succ_cons]
        rw [ih1 hlen2]
        have e1 : i + 1 + k' = i + (k' + 1) := by omega
        have e2 : i + 1 + k' - 1 = i + (k' + 1) - 1 := by omega
        rw [e1]
        simp
      · have hlen2 : ps.length < k' := by
          simp at hlen
          omega
        simp only [interleaveGo, hcond, if_false]
        rw [ih2 hlen2]

lemma interleaveGo_eq_spec (pub : List Video) (N : Nat) (choose : Nat → Nat)
    (hN : 0 < N) :
    ∀ (m : Nat) (l : List Video), l.length ≤ m → ∀ i, i % N = 0 →
      interleaveGo pub N choose i l = specInsertEveryNth pub N choose i l := by
  intro m
  induction m with
  | zero =>
    intro l hl i _
    have : l = [] := List.eq_nil_of_length_eq_zero (Nat.le_zero.mp hl)
    subst this
    rw [specInsertEveryNth]
    simp [interleaveGo, hN]
  | succ m ih =>
    intro l hl i hi
    by_cases hlen : l.length < N
    · have h2 := (interleaveGo_chunk pub N choose hN l N i hN (le_refl N)
        (by rw [Nat.add_mod, hi, Nat.mod_self]; simp)).2 hlen
      rw [h2, specInsertEveryNth]
      rw [dif_pos (Or.inr hlen)]
    · push_neg at hlen
      have h1 := (interleaveGo_chunk pub N choose hN l N i hN (le_refl N)
        (by rw [Nat.add_mod, hi, Nat.mod_self]; simp)).1 hlen
      rw [h1, specInsertEveryNth]
      rw [dif_neg (by push_neg; exact ⟨hN.ne.symm, hlen⟩)]
      have hrec := ih (l.drop N) (by rw [List.length_drop]; omega) (i + N)
        (by rw [Nat.add_mod, hi, Nat.mod_self]; simp)
      rw [hrec]

lemma pickPublicity_mem (publicity : List Video) (hne : publicity ≠ []) (j : Nat) :
    pickPublicity publicity j ∈ publicity := by
  have hpos : 0 < publicity.length := List.length_pos.mpr hne
  have hlt : j % publicity.length < publicity.length := Nat.mod_lt _ hpos
  rw [pickPublicity, List.getD_eq_getElem _ _ hlt]
  exact List.getElem_mem _

/-- C6 (confirmed).  If the publicity pool is empty or the slot count is
not positive, `interleave_playlist` returns the regular playlist
unchanged.  Otherwise it equals the claim-side playlist that inserts one
pool-chosen publicity item after every `n`-th regular item and none
before the `n`-th, and every value the draw can produce is a pool
element. -/
theorem C6_interleave_publicity (programs publicity : List Video) (n : ℤ)
    (choose : Nat → Nat) :
    (publicity = [] ∨ n ≤ 0 → interleave_playlist programs publicity n choose = programs)
    ∧ (publicity ≠ [] → 0 < n →
        interleave_playlist programs publicity n choose
          = specInsertEveryNth publicity n.toNat choose 0 programs
        ∧ ∀ j, pickPublicity publicity (choose j) ∈ publicity) := by
  constructor
  · intro h
    rw [interleave_playlist, if_pos h]
  · intro hne hpos
    have hguard : ¬ (publicity = [] ∨ n ≤ 0) := by
      push_neg
      exact ⟨hne, hpos⟩
    have hN : 0 < n.toNat := by omega
    constructor
    · rw [interleave_playlist, if_neg hguard]
      exact interleaveGo_eq_spec publicity n.toNat choose hN
        programs.length programs (le_refl _) 0 (Nat.zero_mod _)
    · intro j
      exact pickPublicity_mem publicity hne (choose j)

/-- Sample items for the interleave witness. -/
def regR (s : String) : Video :=
  { id := s, title := s, description := "", uploadDate := "20240101",
    duration := 60, isAd := false }

def adZ : Video :=
  { id := "z", title := "z", description := "", uploadDate := "20240101",
    duration := 15, isAd := true }

/-- Witness for C6: four regular items, pool of one ad, `n = 3`. -/
theorem C6_interleave_publicity_witness :
    interleave_playlist [regR "r1", regR "r2", regR "r3", regR "r4"] [adZ] 3 (fun _ : Nat => 0)
        = specInsertEveryNth [adZ] (3 : ℤ).toNat (fun _ : Nat => 0) 0
            [regR "r1", regR "r2", regR "r3", regR "r4"]
      ∧ ∀ j, pickPublicity [adZ] ((fun _ : Nat => 0) j) ∈ [adZ] :=
  (C6_interleave_publicity [regR "r1", regR "r2", regR "r3", regR "r4"] [adZ] 3
    (fun _ : Nat => 0)).2 (by decide) (by decide)

/-! ## Source mixing in create_epg (pseudotv.py lines 307-319)

Per-source candidate lists are combined either by extending one list
after another (`concatenate`, the default branch) or by the nested loop
`for i in range(max_len): for videos in source_channels_videos:
if i < len(videos): append(videos[i])` (`interleave`). -/

/-- `max(len(v) for v in source_channels_videos) if source_channels_videos
else 0`. -/
def maxSourceLen (sources : List (List Video)) : Nat :=
  (sources.map List.length).foldr max 0

/-- The `interleave` nested loop, folded exactly as written: the guarded
indexing `if i < len(videos): videos[i]` is the optional lookup. -/
def mixInterleaveCode (sources : List (List Video)) : List Video :=
  (List.range (maxSourceLen sources)).foldl
    (fun acc i =>
      sources.foldl
        (fun acc2 vs =>
          match vs[i]? with
          | some v => acc2 ++ [v]
          | none => acc2) acc) []

/-- The default branch: `for videos in source_channels_videos:
all_available_videos.extend(videos)`. -/
def mixConcatCode (sources : List (List Video)) : List Video :=
  sources.foldl (fun acc vs => acc ++ vs) []

/-- The dispatch on the channel's `mixing_algorithm` value: `interleave`
selects the nested loop, anything else concatenates. -/
def mixSources (alg : String) (sources : List (List Video)) : List Video :=
  if alg = "interleave" then mixInterleaveCode sources else mixConcatCode sources

/-- Modelled from the claim text, not from the code: round-robin order —
index 0 of every source, then index 1 of every source, and so on,
skipping sources that are exhausted. -/
def roundRobinSpec (sources : List (List Video)) : List Video :=
  (List.range (maxSourceLen sources)).flatMap (fun i => sources.filterMap (fun vs => vs[i]?))

lemma foldl_append_eq_join (sources : List (List Video)) :
    ∀ acc : List Video, sources.foldl (fun a l => a ++ l) acc = acc ++ sources.flatten := by
  induction sources with
  | nil => intro acc; simp
  | cons vs ss ih => intro acc; simp [List.foldl_cons, ih]

lemma foldl_pick_eq_filterMap (i : Nat) (sources : List (List Video)) :
    ∀ acc : List Video,
      sources.foldl
        (fun acc2 vs =>
          match vs[i]? with
          | some v => acc2 ++ [v]
          | none => acc2) acc
      = acc ++ sources.filterMap (fun vs => vs[i]?) := by
  induction sources with
  | nil => intro acc; simp
  | cons vs ss ih =>
    intro acc
    cases h : vs[i]? with
    | none => simp [List.foldl_cons, h, ih]
    | some v => simp [List.foldl_cons, h, ih]

lemma foldl_append_eq_bind (f : Nat → List Video) (is : List Nat) :
    ∀ acc : List Video, is.foldl (fun a i => a ++ f i) acc = acc ++ is.flatMap f := by
  induction is with
  | nil => intro acc; simp
  | cons i is ih => intro acc; simp [List.foldl_cons, ih]

/-- C7 (confirmed).  Combining under `concatenate` (the non-interleave
branch) appends the sources in source order preserving each source's
internal order, and combining under `interleave` yields the round-robin
order, skipping exhausted sources. -/
theorem C7_mixing_algorithms (sources : List (List Video)) :
    mixSources "concatenate" sources = sources.flatten
    ∧ mixSources "interleave" sources = roundRobinSpec sources := by
  constructor
  · rw [mixSources, if_neg (by decide), mixConcatCode, foldl_append_eq_join]
    simp
  · rw [mixSources, if_pos rfl, mixInterleaveCode]
    simp only [foldl_pick_eq_filterMap]
    rw [foldl_append_eq_bind (fun i => sources.filterMap (fun vs => vs[i]?))
      (List.range (maxSourceLen sources)) []]
    simp [roundRobinSpec]

/-! ## Deduplication and ordering (create_epg, pseudotv.py lines 281-287
and 321-329)

The already-scheduled video ids for a channel are collected from the
preserved programme elements (the code keeps them in a set; a list
queried by membership is equivalent).  The combined candidate pool is
filtered against them, then ordered by the channel's sort order.  Python
`list.sort` is a stable sort, embedded as the library's stable
`mergeSort`; `sort(..., reverse=True)` is descending with ties keeping
their original order, which is `mergeSort` under the flipped comparator.
`random.shuffle` is the Fisher-Yates loop
`for i in reversed(range(1, len(x))): j = randbelow(i+1); swap x[i], x[j]`
with the draws supplied by an oracle `rand` (the draw for index `i` is
`rand i` reduced mod `i + 1`). -/

/-- Lines 282-287: ids of programmes already scheduled for `chan`. -/
def scheduledVideoIds (progs : List Programme) (chan : String) : List String :=
  (progs.filter (fun p => p.channel = chan)).map (fun p => p.videoId)

/-- Line 321: `[v for v in all_available_videos if v and v.get('id') not
in scheduled_video_ids]`.  The truthiness guard `if v` only drops null
entries, which the typed embedding cannot represent. -/
def unscheduledVideos (pool : List Video) (sched : List String) : List Video :=
  pool.filter (fun v => v.id ∉ sched)

/-- Upload-date comparator, ascending (`oldest`). -/
def leUploadAsc (a b : Video) : Bool := decide (a.uploadDate ≤ b.uploadDate)

/-- Upload-date comparator for `reverse=True` (`newest`): descending,
with ties keeping their original order under a stable sort. -/
def leUploadDesc (a b : Video) : Bool := decide (b.uploadDate ≤ a.uploadDate)

/-- `x[i], x[j] = x[j], x[i]` on a list. -/
def swapL (l : List Video) (i j : Nat) : List Video :=
  match l[i]?, l[j]? with
  | some a, some b => (l.set i b).set j a
  | _, _ => l

/-- The shuffle loop, counting `i` down to 1. -/
def fyLoop (rand : Nat → Nat) : Nat → List Video → List Video
  | 0, l => l
  | i + 1, l => fyLoop rand i (swapL l (i + 1) (rand (i + 1) % (i + 2)))

/-- `random.shuffle(x)`: no swap happens for lists of length 0 or 1. -/
def shuffleVideos (rand : Nat → Nat) (l : List Video) : List Video :=
  match l.length with
  | 0 => l
  | n + 1 => fyLoop rand n l

/-- Lines 324-329: `oldest` sorts ascending, `random` shuffles, anything
else (`newest`, the default) sorts descending with `reverse=True`. -/
def orderVideos (order : String) (rand : Nat → Nat) (l : List Video) : List Video :=
  if order = "oldest" then l.mergeSort leUploadAsc
  else if order = "random" then shuffleVideos rand l
  else l.mergeSort leUploadDesc

lemma leUploadAsc_trans (a b c : Video) (h1 : leUploadAsc a b = true)
    (h2 : leUploadAsc b c = true) : leUploadAsc a c = true := by
  simp only [leUploadAsc, decide_eq_true_eq] at *
  exact le_trans h1 h2

lemma leUploadAsc_total (a b : Video) : (leUploadAsc a b || leUploadAsc b a) = true := by
  simp only [leUploadAsc, Bool.or_eq_true, decide_eq_true_eq]
  exact le_total _ _

lemma leUploadDesc_trans (a b c : Video) (h1 : leUploadDesc a b = true)
    (h2 : leUploadDesc b c = true) : leUploadDesc a c = true := by
  simp only [leUploadDesc, decide_eq_true_eq] at *
  exact le_trans h2 h1

lemma leUploadDesc_total (a b : Video) : (leUploadDesc a b || leUploadDesc b a) = true := by
  simp only [leUploadDesc, Bool.or_eq_true, decide_eq_true_eq]
  exact le_total _ _

lemma set_set_perm (l : List Video) (i j : Nat) (a b : Video)
    (hi : l[i]? = some a) (hj : l[j]? = some b) :
    ((l.set i b).set j a).Perm l := by
  obtain ⟨hil, hie⟩ := List.getElem?_eq_some.mp hi
  obtain ⟨hjl, hje⟩ := List.getElem?_eq_some.mp hj
  have hmem : a ∈ l := List.getElem?_mem hi
  have hmemb : b ∈ l := List.getElem?_mem hj
  rw [List.perm_iff_count]
  intro x
  have hjl2 : j < (l.set i b).length := by simpa using hjl
  have hmid : (l.set i b)[j] = b := by
    have h := List.getElem?_set (l := l) (i := i) (j := j) (a := b)
    by_cases hij : i = j
    · subst hij
      rw [if_pos rfl, if_pos hil] at h
      exact (List.getElem?_eq_some.mp h).2
    · rw [if_neg hij, hj] at h
      exact (List.getElem?_eq_some.mp h).2
  rw [List.count_set _ _ _ _ hjl2, List.count_set _ _ _ _ hil, hie, hmid]
  have hca : a = x → 1 ≤ List.count x l := by
    intro h
    subst h
    exact List.count_pos_iff.mpr hmem
  by_cases hax : a = x
  · have h1 := hca hax
    by_cases hbx : b = x <;> simp [beq_iff_eq, hax, hbx] <;> omega
  · by_cases hbx : b = x <;> simp [beq_iff_eq, hax, hbx]

lemma swapL_perm (l : List Video) (i j : Nat) : (swapL l i j).Perm l := by
  unfold swapL
  rcases hi : l[i]? with _ | a <;> rcases hj : l[j]? with _ | b <;> simp
  exact set_set_perm l i j a b hi hj

lemma fyLoop_perm (rand : Nat → Nat) : ∀ (i : Nat) (l : List Video),
    (fyLoop rand i l).Perm l
  | 0, l => List.Perm.refl l
  | i + 1, l =>
    (fyLoop_perm rand i (swapL l (i + 1) (rand (i + 1) % (i + 2)))).trans
      (swapL_perm l (i + 1) (rand (i + 1) % (i + 2)))

lemma shuffleVideos_perm (rand : Nat → Nat) (l : List Video) :
    (shuffleVideos rand l).Perm l := by
  unfold shuffleVideos
  rcases h : l.length with _ | n
  · exact List.Perm.refl l
  · exact fyLoop_perm rand n l

lemma mergeSort_filter_eq (le : Video → Video → Bool)
    (htrans : ∀ a b c, le a b = true → le b c = true → le a c = true)
    (htotal : ∀ a b, (le a b || le b a) = true)
    (l : List Video) (p : Video → Bool)
    (hp : ∀ a b, p a = true → p b = true → le a b = true) :
    (l.mergeSort le).filter p = l.filter p := by
  have hc : (l.filter p).Pairwise (fun a b => le a b = true) :=
    List.pairwise_of_forall_mem_list (fun a ha b hb =>
      hp a b (List.of_mem_filter ha) (List.of_mem_filter hb))
  have hsub : (l.filter p).Sublist (l.mergeSort le) :=
    List.sublist_mergeSort htrans htotal hc (List.filter_sublist l)
  have hself : (l.filter p).filter p = l.filter p :=
    List.filter_eq_self.mpr (fun a ha => List.of_mem_filter ha)
  have hsub2 : (l.filter p).Sublist ((l.mergeSort le).filter p) := by
    have := hsub.filter p
    rwa [hself] at this
  have hperm : ((l.mergeSort le).filter p).Perm (l.filter p) :=
    (List.mergeSort_perm l le).filter p
  exact (hsub2.eq_of_length hperm.length_eq.symm).symm

/-- C8 (confirmed).  The candidates whose ids already appear among the
channel's scheduled programmes are exactly the ones removed from the
pool; ordering the remainder `u` under `oldest` gives upload dates
ascending, under `newest` descending, each a permutation of `u` that is
stable for equal upload dates (the sub-list with any fixed upload date
is unchanged); `random` applies the Fisher-Yates shuffle driven by the
random oracle, a permutation of `u`. -/
theorem C8_dedup_and_order (pool : List Video) (progs : List Programme)
    (chan : String) (rand : Nat → Nat) (sched : List String) (u : List Video)
    (hsched : sched = scheduledVideoIds progs chan)
    (hu : u = unscheduledVideos pool sched) :
    (∀ v, v ∈ u ↔ v ∈ pool ∧ v.id ∉ sched)
    ∧ (orderVideos "oldest" rand u).Pairwise (fun a b => a.uploadDate ≤ b.uploadDate)
    ∧ (orderVideos "oldest" rand u).Perm u
    ∧ (∀ d, (orderVideos "oldest" rand u).filter (fun v => v.uploadDate = d)
        = u.filter (fun v => v.uploadDate = d))
    ∧ (orderVideos "newest" rand u).Pairwise (fun a b => b.uploadDate ≤ a.uploadDate)
    ∧ (orderVideos "newest" rand u).Perm u
    ∧ (∀ d, (orderVideos "newest" rand u).filter (fun v => v.uploadDate = d)
        = u.filter (fun v => v.uploadDate = d))
    ∧ (orderVideos "random" rand u).Perm u := by
  subst hsched hu
  have holdest : orderVideos "oldest" rand (unscheduledVideos pool (scheduledVideoIds progs chan))
      = (unscheduledVideos pool (scheduledVideoIds progs chan)).mergeSort leUploadAsc := by
    rw [orderVideos, if_pos rfl]
  have hnewest : orderVideos "newest" rand (unscheduledVideos pool (scheduledVideoIds progs chan))
      = (unscheduledVideos pool (scheduledVideoIds progs chan)).mergeSort leUploadDesc := by
    rw [orderVideos, if_neg (by decide), if_neg (by decide)]
  have hrandom : orderVideos "random" rand (unscheduledVideos pool (scheduledVideoIds progs chan))
      = shuffleVideos rand (unscheduledVideos pool (scheduledVideoIds progs chan)) := by
    rw [orderVideos, if_neg (by decide), if_pos rfl]
  refine ⟨?_, ?_, ?_, ?_, ?_, ?_, ?_, ?_⟩
  · intro v
    simp [unscheduledVideos, List.mem_filter]
  · rw [holdest]
    exact (List.sorted_mergeSort leUploadAsc_trans leUploadAsc_total _).imp
      (fun h => by simpa [leUploadAsc, decide_eq_true_eq] using h)
  · rw [holdest]
    exact List.mergeSort_perm _ _
  · intro d
    rw [holdest]
    exact mergeSort_filter_eq leUploadAsc leUploadAsc_trans leUploadAsc_total _
      (fun v => decide (v.uploadDate = d))
      (fun a b ha hb => by
        simp only [decide_eq_true_eq] at ha hb
        simp [leUploadAsc, ha, hb])
  · rw [hnewest]
    exact (List.sorted_mergeSort leUploadDesc_trans leUploadDesc_total _).imp
      (fun h => by simpa [leUploadDesc, decide_eq_true_eq] using h)
  · rw [hnewest]
    exact List.mergeSort_perm _ _
  · intro d
    rw [hnewest]
    exact mergeSort_filter_eq leUploadDesc leUploadDesc_trans leUploadDesc_total _
      (fun v => decide (v.uploadDate = d))
      (fun a b ha hb => by
        simp only [decide_eq_true_eq] at ha hb
        simp [leUploadDesc, ha, hb])
  · rw [hrandom]
    exact shuffleVideos_perm rand _

/-- Sample data for the dedup/order witness: one programme already
schedules id `a`, the pool holds `vidA` (id `a`) and two fresh videos. -/
def progForA : Programme :=
  { channel := "ch", start := 0, stop := 3600, title := "t",
    description := "d", videoId := "a" }

/-- Witness for C8: concrete pool, schedule and oracle. -/
theorem C8_dedup_and_order_witness :
    (∀ v, v ∈ unscheduledVideos [vidA, regR "r1", regR "r2"]
        (scheduledVideoIds [progForA] "ch")
      ↔ v ∈ [vidA, regR "r1", regR "r2"]
        ∧ v.id ∉ scheduledVideoIds [progForA] "ch")
    ∧ (orderVideos "oldest" (fun _ : Nat => 0)
        (unscheduledVideos [vidA, regR "r1", regR "r2"]
          (scheduledVideoIds [progForA] "ch"))).Pairwise
        (fun a b => a.uploadDate ≤ b.uploadDate)
    ∧ (orderVideos "oldest" (fun _ : Nat => 0)
        (unscheduledVideos [vidA, regR "r1", regR "r2"]
          (scheduledVideoIds [progForA] "ch"))).Perm
        (unscheduledVideos [vidA, regR "r1", regR "r2"]
          (scheduledVideoIds [progForA] "ch"))
    ∧ (∀ d, (orderVideos "oldest" (fun _ : Nat => 0)
        (unscheduledVideos [vidA, regR "r1", regR "r2"]
          (scheduledVideoIds [progForA] "ch"))).filter (fun v => v.uploadDate = d)
        = (unscheduledVideos [vidA, regR "r1", regR "r2"]
          (scheduledVideoIds [progForA] "ch")).filter (fun v => v.uploadDate = d))
    ∧ (orderVideos "newest" (fun _ : Nat => 0)
        (unscheduledVideos [vidA, regR "r1", regR "r2"]
          (scheduledVideoIds [progForA] "ch"))).Pairwise
        (fun a b => b.uploadDate ≤ a.uploadDate)
    ∧ (orderVideos "newest" (fun _ : Nat => 0)
        (unscheduledVideos [vidA, regR "r1", regR "r2"]
          (scheduledVideoIds [progForA] "ch"))).Perm
        (unscheduledVideos [vidA, regR "r1", regR "r2"]
          (scheduledVideoIds [progForA] "ch"))
    ∧ (∀ d, (orderVideos "newest" (fun _ : Nat => 0)
        (unscheduledVideos [vidA, regR "r1", regR "r2"]
          (scheduledVideoIds [progForA] "ch"))).filter (fun v => v.uploadDate = d)
        = (unscheduledVideos [vidA, regR "r1", regR "r2"]
          (scheduledVideoIds [progForA] "ch")).filter (fun v => v.uploadDate = d))
    ∧ (orderVideos "random" (fun _ : Nat => 0)
        (unscheduledVideos [vidA, regR "r1", regR "r2"]
          (scheduledVideoIds [progForA] "ch"))).Perm
        (unscheduledVideos [vidA, regR "r1", regR "r2"]
          (scheduledVideoIds [progForA] "ch")) :=
  C8_dedup_and_order [vidA, regR "r1", regR "r2"] [progForA] "ch"
    (fun _ : Nat => 0) (scheduledVideoIds [progForA] "ch")
    (unscheduledVideos [vidA, regR "r1", regR "r2"]
      (scheduledVideoIds [progForA] "ch")) rfl rfl

/-! ## fetch_videos (pseudotv.py lines 38-148)

URLs are embedded as lists of characters so that the Python string
splitting can be transcribed directly.  The network call
`ydl.extract_info` is an oracle
`fetch : List Char → Except Unit (Option (List Video))`: an `error` is a
raised exception, `ok none` is a result without an `entries` key (the
function then falls through to `return []` with no retry), `ok (some es)`
is a successful listing.  The cache file for the fetch's key is an
oracle `cached : Option (Int × List Video)`: `none` when the file does
not exist or cannot be parsed (both treated as a miss), otherwise its
timestamp and stored videos. -/

/-- Python `sub in s`. -/
def containsSub (sep : List Char) : List Char → Bool
  | [] => sep.isPrefixOf []
  | c :: cs => sep.isPrefixOf (c :: cs) || containsSub sep cs

/-- Scan for the first occurrence of `sep`: the characters before it,
and (when found) the remainder after it. -/
def breakOnSub (sep : List Char) : List Char → List Char × Option (List Char)
  | [] => ([], none)
  | c :: cs =>
    if sep.isPrefixOf (c :: cs) then ([], some (List.drop sep.length (c :: cs)))
    else
      let rest := breakOnSub sep cs
      (c :: rest.1, rest.2)

/-- Iterate `breakOnSub`; each found separator consumes at least one
character, so `s.length + 1` rounds of fuel always suffice. -/
def splitOnFuel (sep : List Char) : Nat → List Char → List (List Char)
  | 0, s => [s]
  | fuel + 1, s =>
    match breakOnSub sep s with
    | (pre, none) => [pre]
    | (pre, some rest) => pre :: splitOnFuel sep fuel rest

/-- Python `s.split(sep)` for nonempty `sep`. -/
def splitL (s sep : List Char) : List (List Char) :=
  match sep with
  | [] => [s]
  | _ => splitOnFuel sep (s.length + 1) s

/-- Python `s.split(sep)[-1]`. -/
def lastPart (s sep : List Char) : List Char := (splitL s sep).getLastD []

/-- Python `s.split(sep)[0]`. -/
def firstPart (s sep : List Char) : List Char := (splitL s sep).headD []

/-- Lines 55-65: resolve channel-style handles (`/c/`, `/user/`, `@`) to
the canonical videos-listing URL; other URLs pass through unchanged. -/
def processedUrl (url : List Char) : List Char :=
  if containsSub "youtube.com/c/".toList url
      || containsSub "youtube.com/user/".toList url
      || containsSub "youtube.com/@".toList url then
    if containsSub "youtube.com/@".toList url then
      "https://www.youtube.com/@".toList
        ++ firstPart (lastPart url "@".toList) "/".toList ++ "/videos".toList
    else if containsSub "youtube.com/c/".toList url then
      "https://www.youtube.com/c/".toList
        ++ firstPart (lastPart url "/c/".toList) "/".toList ++ "/videos".toList
    else
      "https://www.youtube.com/user/".toList
        ++ firstPart (lastPart url "/user/".toList) "/".toList ++ "/videos".toList
  else url

/-- The observable outcome of one `fetch_videos` call: the returned
list, the network requests attempted in order, whether the cached list
was returned, and the list written to the cache file (if any). -/
structure FetchResult where
  videos : List Video
  fetched : List (List Char)
  cacheHit : Bool
  cacheWrite : Option (List Video)
  deriving DecidableEq, Repr

/-- Lines 100-148: the fetch attempt with its single fallback.  On an
exception for the processed URL, the original URL is retried exactly
once, and only when handle resolution changed the URL; any remaining
failure (or a result without entries) yields the empty list.
`cacheActive` tells whether a cache file path was computed, which is the
write condition `cache_enabled and cache_file_path` of lines 109 and
134. -/
def fetchFresh (fetch : List Char → Except Unit (Option (List Video)))
    (purl url : List Char) (cacheActive : Bool) : FetchResult :=
  match fetch purl with
  | .ok (some entries) =>
    { videos := entries, fetched := [purl], cacheHit := false,
      cacheWrite := if cacheActive then some entries else none }
  | .ok none => { videos := [], fetched := [purl], cacheHit := false, cacheWrite := none }
  | .error _ =>
    if purl ≠ url then
      match fetch url with
      | .ok (some entries) =>
        { videos := entries, fetched := [purl, url], cacheHit := false,
          cacheWrite := if cacheActive then some entries else none }
      | .ok none =>
        { videos := [], fetched := [purl, url], cacheHit := false, cacheWrite := none }
      | .error _ =>
        { videos := [], fetched := [purl, url], cacheHit := false, cacheWrite := none }
    else { videos := [], fetched := [purl], cacheHit := false, cacheWrite := none }

/-- `fetch_videos(channel_url, ..., cache_enabled, cache_ttl_hours)`.
Lines 67-85: a cache file path exists only when
`cache_enabled and cache_ttl_hours > 0`; a parseable cache entry younger
than the TTL is returned verbatim, anything else falls through to the
fresh fetch. -/
def fetch_videos (fetch : List Char → Except Unit (Option (List Video)))
    (url : List Char) (cache_enabled : Bool) (cache_ttl_hours : ℤ)
    (now : ℤ) (cached : Option (ℤ × List Video)) : FetchResult :=
  let purl := processedUrl url
  if cache_enabled && decide (0 < cache_ttl_hours) then
    match cached with
    | some (ts, vids) =>
      if now - ts < cache_ttl_hours * 3600 then
        { videos := vids, fetched := [], cacheHit := true, cacheWrite := none }
      else fetchFresh fetch purl url true
    | none => fetchFresh fetch purl url true
  else fetchFresh fetch purl url false

/-- Lines 307-309: one fetch per configured source URL, results kept per
source (shown here with caching off; the cache gate is C10). -/
def sourceVideosLists (fetch : List Char → Except Unit (Option (List Video)))
    (now : ℤ) (urls : List (List Char)) : List (List Video) :=
  urls.map (fun w => (fetch_videos fetch w false 0 now none).videos)

lemma mixConcatCode_eq_flatten (ss : List (List Video)) :
    mixConcatCode ss = ss.flatten := by
  rw [mixConcatCode, foldl_append_eq_join]
  simp

lemma fetch_videos_cache_off (fetch : List Char → Except Unit (Option (List Video)))
    (url : List Char) (now : ℤ) :
    fetch_videos fetch url false 0 now none
      = fetchFresh fetch (processedUrl url) url false := by
  rw [fetch_videos]
  simp

lemma fetchFresh_fetched_err (fetch : List Char → Except Unit (Option (List Video)))
    (p u : List Char) (c : Bool) (herr : fetch p = .error ()) :
    (fetchFresh fetch p u c).fetched = if p ≠ u then [p, u] else [p] := by
  by_cases hpu : p ≠ u
  · rw [if_pos hpu]
    simp only [fetchFresh, herr]
    rw [if_pos hpu]
    rcases hu : fetch u with e | oe
    · rfl
    · cases oe <;> rfl
  · rw [if_neg hpu]
    simp only [fetchFresh, herr]
    rw [if_neg hpu]

lemma fetchFresh_videos_err_err (fetch : List Char → Except Unit (Option (List Video)))
    (p u : List Char) (c : Bool) (herr : fetch p = .error ())
    (herr2 : fetch u = .error ()) :
    (fetchFresh fetch p u c).videos = [] := by
  simp only [fetchFresh, herr]
  by_cases hpu : p ≠ u
  · rw [if_pos hpu]
    simp only [herr2]
  · rw [if_neg hpu]

lemma fetchFresh_videos_err_ok (fetch : List Char → Except Unit (Option (List Video)))
    (p u : List Char) (c : Bool) (es : List Video) (herr : fetch p = .error ())
    (hne : p ≠ u) (hok : fetch u = .ok (some es)) :
    (fetchFresh fetch p u c).videos = es := by
  simp only [fetchFresh, herr]
  rw [if_pos hne]
  simp only [hok]

/-- C9 (confirmed).  When the fetch against the resolved URL raises and
handle resolution changed the URL, exactly one retry against the
original URL happens; when resolution left the URL unchanged there is no
retry; when the retry also fails the result is the empty list (never an
exception — the embedding is a total function into `FetchResult`); a
successful retry returns its entries; and a source whose fetches all
fail contributes nothing to the channel's combined pool while the other
sources' contributions are kept. -/
theorem C9_fetch_failure_policy
    (fetch : List Char → Except Unit (Option (List Video)))
    (url u : List Char) (now : ℤ) (us1 us2 : List (List Char)) :
    (fetch (processedUrl url) = .error () → processedUrl url ≠ url →
      (fetch_videos fetch url false 0 now none).fetched = [processedUrl url, url])
    ∧ (fetch (processedUrl url) = .error () → processedUrl url = url →
      (fetch_videos fetch url false 0 now none).fetched = [processedUrl url])
    ∧ (fetch (processedUrl url) = .error () → fetch url = .error () →
      (fetch_videos fetch url false 0 now none).videos = [])
    ∧ (fetch (processedUrl url) = .error () → processedUrl url ≠ url →
        ∀ es, fetch url = .ok (some es) →
      (fetch_videos fetch url false 0 now none).videos = es)
    ∧ (fetch (processedUrl u) = .error () → fetch u = .error () →
      mixConcatCode (sourceVideosLists fetch now (us1 ++ u :: us2))
        = mixConcatCode (sourceVideosLists fetch now us1)
          ++ mixConcatCode (sourceVideosLists fetch now us2)) := by
  refine ⟨?_, ?_, ?_, ?_, ?_⟩
  · intro herr hne
    rw [fetch_videos_cache_off, fetchFresh_fetched_err _ _ _ _ herr, if_pos hne]
  · intro herr heq
    rw [fetch_videos_cache_off, fetchFresh_fetched_err _ _ _ _ herr,
      if_neg (by simpa using heq), heq]
  · intro herr herr2
    rw [fetch_videos_cache_off, fetchFresh_videos_err_err _ _ _ _ herr herr2]
  · intro herr hne es hok
    rw [fetch_videos_cache_off, fetchFresh_videos_err_ok _ _ _ _ _ herr hne hok]
  · intro herru herr2u
    have hfu : (fetch_videos fetch u false 0 now none).videos = [] := by
      rw [fetch_videos_cache_off, fetchFresh_videos_err_err _ _ _ _ herru herr2u]
    have hsplit : sourceVideosLists fetch now (us1 ++ u :: us2)
        = sourceVideosLists fetch now us1 ++ [] :: sourceVideosLists fetch now us2 := by
      simp [sourceVideosLists, hfu]
    rw [hsplit, mixConcatCode_eq_flatten, mixConcatCode_eq_flatten,
      mixConcatCode_eq_flatten]
    simp

/-- The all-failing fetch oracle used by the C9 witness. -/
def failFetch : List Char → Except Unit (Option (List Video)) :=
  fun _ => Except.error ()

/-- A handle-style URL whose resolution changes it. -/
def urlAtH : List Char := "https://www.youtube.com/@h".toList

/-- Witness for C9: with every fetch failing on the handle URL, the call
attempts the resolved URL then the original, returns no videos, and the
channel combine over this single all-failing source is empty. -/
theorem C9_fetch_failure_policy_witness :
    (fetch_videos failFetch urlAtH false 0 0 none).fetched
        = [processedUrl urlAtH, urlAtH]
      ∧ (fetch_videos failFetch urlAtH false 0 0 none).videos = []
      ∧ mixConcatCode (sourceVideosLists failFetch 0 ([] ++ urlAtH :: []))
        = mixConcatCode (sourceVideosLists failFetch 0 [])
          ++ mixConcatCode (sourceVideosLists failFetch 0 []) :=
  ⟨(C9_fetch_failure_policy failFetch urlAtH urlAtH 0 [] []).1 rfl (by decide),
   (C9_fetch_failure_policy failFetch urlAtH urlAtH 0 [] []).2.2.1 rfl rfl,
   (C9_fetch_failure_policy failFetch urlAtH urlAtH 0 [] []).2.2.2.2 rfl rfl⟩

lemma fetchFresh_no_cache (fetch : List Char → Except Unit (Option (List Video)))
    (p u : List Char) :
    (fetchFresh fetch p u false).cacheHit = false
      ∧ (fetchFresh fetch p u false).cacheWrite = none := by
  unfold fetchFresh
  rcases hp : fetch p with e | oe
  · by_cases hpu : p ≠ u
    · rw [if_pos hpu]
      rcases hu : fetch u with e2 | oe2
      · exact ⟨rfl, rfl⟩
      · cases oe2
        · exact ⟨rfl, rfl⟩
        · exact ⟨rfl, rfl⟩
    · rw [if_neg hpu]
      exact ⟨rfl, rfl⟩
  · cases oe
    · exact ⟨rfl, rfl⟩
    · exact ⟨rfl, rfl⟩

/-- C10 (confirmed).  Unless the channel's cache toggle is enabled and
the TTL is strictly positive, a `fetch_videos` call never reports a
cache hit, never writes a cache entry, and behaves exactly like the
cache-disabled call (a fresh fetch); in particular this holds with the
default TTL of zero even when the toggle is enabled. -/
theorem C10_cache_gating (fetch : List Char → Except Unit (Option (List Video)))
    (url : List Char) (enabled : Bool) (ttl now : ℤ)
    (cached : Option (ℤ × List Video))
    (h : ¬ (enabled = true ∧ 0 < ttl)) :
    (fetch_videos fetch url enabled ttl now cached).cacheHit = false
      ∧ (fetch_videos fetch url enabled ttl now cached).cacheWrite = none
      ∧ fetch_videos fetch url enabled ttl now cached
          = fetch_videos fetch url false 0 now none := by
  have hguard : (enabled && decide (0 < ttl)) = false := by
    cases enabled
    · simp
    · simp only [Bool.true_and, decide_eq_false_iff_not]
      intro hlt
      exact h ⟨rfl, hlt⟩
  have h1 : fetch_videos fetch url enabled ttl now cached
      = fetchFresh fetch (processedUrl url) url false := by
    rw [fetch_videos.eq_def]
    simp only [hguard, Bool.false_eq_true, if_false]
  have h2 : fetch_videos fetch url false 0 now none
      = fetchFresh fetch (processedUrl url) url false :=
    fetch_videos_cache_off fetch url now
  rw [h1, h2]
  exact ⟨(fetchFresh_no_cache fetch _ url).1, (fetchFresh_no_cache fetch _ url).2, rfl⟩

/-- Witness for C10: cache toggle enabled but TTL zero, with a fresh
cache entry present — still no hit, no write, and the plain fresh
fetch. -/
theorem C10_cache_gating_witness :
    (fetch_videos failFetch urlAtH true 0 0 (some (0, [vidA]))).cacheHit = false
      ∧ (fetch_videos failFetch urlAtH true 0 0 (some (0, [vidA]))).cacheWrite = none
      ∧ fetch_videos failFetch urlAtH true 0 0 (some (0, [vidA]))
          = fetch_videos failFetch urlAtH false 0 0 none :=
  C10_cache_gating failFetch urlAtH true 0 0 (some (0, [vidA])) (by decide)

/-! ## Persisting the EPG file (create_epg, pseudotv.py lines 352-355)

`tree.write(output_file, ...)` opens the destination path itself for
writing — truncating it — and then streams the serialized document into
it.  There is no temporary file and no rename.  The write is embedded as
its sequence of file operations on the destination path; a concurrent
reader (`serve_epg`, `generate_stream`) sees the content after some
prefix of that sequence.  File contents are lists of characters. -/

inductive FileOp where
  | truncate
  | writeChunk (s : List Char)
  deriving DecidableEq, Repr

/-- The operation sequence of `tree.write` on the destination path:
open-for-write truncates, then the serialized chunks are appended. -/
def treeWriteOps (chunks : List (List Char)) : List FileOp :=
  FileOp.truncate :: chunks.map FileOp.writeChunk

/-- File content after executing `ops` on a file holding `old`. -/
def runOps (old : List Char) (ops : List FileOp) : List Char :=
  ops.foldl
    (fun cur op =>
      match op with
      | FileOp.truncate => []
      | FileOp.writeChunk s => cur ++ s) old

lemma runOps_writeChunks (s : List Char) (cs : List (List Char)) :
    runOps s (cs.map FileOp.writeChunk) = s ++ cs.flatten := by
  induction cs generalizing s with
  | nil => simp [runOps]
  | cons c cs ih =>
    simp only [List.map_cons, runOps, List.foldl_cons] at *
    rw [ih]
    simp

/-- C3 (amended).  The persisted EPG file is written in place: before
the write starts a reader sees the old content, after `k` chunks it sees
exactly the first `k` chunks of the new serialization (in particular the
empty truncated file at `k = 0`... i.e. after the truncating open), and
after the full sequence it sees the complete new content.  Intermediate
states are therefore observable; they are not equal to either version in
general. -/
theorem C3_write_in_place (old : List Char) (chunks : List (List Char)) :
    runOps old ((treeWriteOps chunks).take 0) = old
    ∧ (∀ k, runOps old ((treeWriteOps chunks).take (k + 1)) = (chunks.take k).flatten)
    ∧ runOps old (treeWriteOps chunks) = chunks.flatten := by
  refine ⟨rfl, ?_, ?_⟩
  · intro k
    have h : (treeWriteOps chunks).take (k + 1)
        = FileOp.truncate :: (chunks.take k).map FileOp.writeChunk := by
      simp [treeWriteOps, List.map_take]
    rw [h]
    show runOps old (FileOp.truncate :: (chunks.take k).map FileOp.writeChunk)
      = (chunks.take k).flatten
    have h2 : runOps old (FileOp.truncate :: (chunks.take k).map FileOp.writeChunk)
        = runOps [] ((chunks.take k).map FileOp.writeChunk) := rfl
    rw [h2, runOps_writeChunks]
    simp
  · have h2 : runOps old (treeWriteOps chunks)
        = runOps [] (chunks.map FileOp.writeChunk) := rfl
    rw [h2, runOps_writeChunks]
    simp

/-- Counterexample to C3 as stated: writing the new serialization
(chunks tv-open, tv-close) over the old content, a reader arriving after
the first chunk observes the open tag alone — neither the fully old nor
the fully new version, so the replace is not atomic. -/
theorem C3_counterexample :
    runOps "<tv-old/>".toList ((treeWriteOps ["<tv>".toList, "</tv>".toList]).take 2)
        = "<tv>".toList
      ∧ "<tv>".toList ≠ "<tv-old/>".toList
      ∧ "<tv>".toList ≠ ["<tv>".toList, "</tv>".toList].flatten := by
  refine ⟨by decide, by decide, by decide⟩

/-! ## Carrying forward programmes on a full refresh (create_epg,
pseudotv.py lines 225-243)

Because the whole body of `create_epg` sits inside the
`else:` branch of `if target_channel_id:` (see `create_epg` below), the
preservation loop only ever runs with `target_channel_id = None`, so the
executed filter is the full-refresh one: a programme is kept iff its
channel's refresh strategy is `roll` and its stop time is still in the
future. -/

/-- The per-channel configuration fields that `create_epg` reads. -/
structure ChannelConfig where
  id : String
  name : String
  epg_refresh_strategy : Option String
  youtube_channels : List (List Char)
  sort_order : Option String
  mixing_algorithm : Option String
  programs_per_publicity : ℤ
  publicity_pool : Option String
  cache : Bool
  cache_ttl_hours : Option ℤ
  deriving DecidableEq, Repr

/-- Lines 233-237: the strategy of the channel owning a programme —
`roll` when the channel is not configured, else its
`epg_refresh_strategy` with default `roll`. -/
def refreshStrategy (all_channels : List ChannelConfig) (cid : String) : String :=
  match all_channels.find? (fun c => c.id = cid) with
  | none => "roll"
  | some c => c.epg_refresh_strategy.getD "roll"

/-- Lines 226-243 as executed (full refresh): keep a programme iff its
channel's strategy is `roll` and `stop_time > now_utc`. -/
def preserveProgrammes (all_channels : List ChannelConfig) (now : ℤ)
    (progs : List Programme) : List Programme :=
  progs.filter
    (fun p => decide (refreshStrategy all_channels p.channel = "roll")
      && decide (now < p.stop))

/-- C4 (confirmed).  On a full refresh a programme is carried forward
iff it was present, its channel's strategy is `roll`, and its stop time
is strictly after `now`; a channel with any other strategy keeps
nothing; and when every programme belongs to a `roll` channel and stops
after `now`, the carried-forward set is the identical programme list, so
a save/reload round trip reproduces it. -/
theorem C4_roll_preservation (all_channels : List ChannelConfig) (now : ℤ)
    (progs : List Programme) :
    (∀ p, p ∈ preserveProgrammes all_channels now progs
      ↔ p ∈ progs ∧ refreshStrategy all_channels p.channel = "roll" ∧ now < p.stop)
    ∧ (∀ p ∈ progs, refreshStrategy all_channels p.channel ≠ "roll" →
        p ∉ preserveProgrammes all_channels now progs)
    ∧ ((∀ p ∈ progs, refreshStrategy all_channels p.channel = "roll") →
        (∀ p ∈ progs, now < p.stop) →
        preserveProgrammes all_channels now progs = progs) := by
  refine ⟨?_, ?_, ?_⟩
  · intro p
    simp [preserveProgrammes, List.mem_filter, and_assoc]
  · intro p hp hstrat hmem
    rw [preserveProgrammes, List.mem_filter] at hmem
    simp only [Bool.and_eq_true, decide_eq_true_eq] at hmem
    exact hstrat hmem.2.1
  · intro hroll hfut
    rw [preserveProgrammes, List.filter_eq_self]
    intro p hp
    simp only [Bool.and_eq_true, decide_eq_true_eq]
    exact ⟨hroll p hp, hfut p hp⟩

/-- A channel configuration for the preservation witness. -/
def cfgCh1 : ChannelConfig :=
  { id := "ch", name := "Channel One", epg_refresh_strategy := none,
    youtube_channels := [], sort_order := none, mixing_algorithm := none,
    programs_per_publicity := 0, publicity_pool := none,
    cache := false, cache_ttl_hours := none }

/-- Witness for C4: a single roll channel whose programme stops in the
future is preserved identically. -/
theorem C4_roll_preservation_witness :
    (progP1 ∈ preserveProgrammes [cfgCh1] (-1) [progP1]
      ↔ progP1 ∈ [progP1] ∧ refreshStrategy [cfgCh1] progP1.channel = "roll"
          ∧ (-1 : ℤ) < progP1.stop)
    ∧ preserveProgrammes [cfgCh1] (-1) [progP1] = [progP1] :=
  ⟨(C4_roll_preservation [cfgCh1] (-1) [progP1]).1 progP1,
   (C4_roll_preservation [cfgCh1] (-1) [progP1]).2.2
     (by decide) (by decide)⟩

/-! ## create_epg as a whole (pseudotv.py lines 195-356)

In the source, everything from line 201 (`epg_config = ...`) through the
final `tree.write` at line 355 is indented inside the `else:` branch of
`if target_channel_id:` at line 196.  When a target channel id is given
(the `--update-channel` path and the single-channel update of the spec),
the function therefore only prints a message and returns: nothing is
parsed, rebuilt or written, and the persisted file keeps its previous
content.  The single-channel logic at lines 228 and 248-256 is dead
code — inside the `else:` branch `target_channel_id` is always `None`.
The full-refresh branch is assembled below from the component functions
already defined. -/

/-- A `<channel>` element of the persisted file. -/
structure ChannelDef where
  id : String
  name : String
  deriving DecidableEq, Repr

/-- The persisted EPG file: channel registry plus programme list. -/
abbrev EpgFile := List ChannelDef × List Programme

/-- A publicity pool entry of the `publicity:` configuration map. -/
structure PublicityPool where
  youtube_channels : List (List Char)
  cache : Bool
  cache_ttl_hours : Option ℤ
  deriving DecidableEq, Repr

/-- Lines 331-347: fetch the configured publicity pool (skipped when the
channel has no pool or the name is not configured) and tag every fetched
video as an advertisement. -/
def fetchPublicity (fetchO : List Char → Except Unit (Option (List Video)))
    (cacheO : List Char → Option (ℤ × List Video)) (now globalTtl : ℤ)
    (pools : List (String × PublicityPool)) (poolName : Option String) :
    List Video :=
  match poolName with
  | none => []
  | some name =>
    match pools.find? (fun q => q.1 = name) with
    | none => []
    | some q =>
      (q.2.youtube_channels.map (fun u =>
        ((fetch_videos fetchO u q.2.cache (q.2.cache_ttl_hours.getD globalTtl)
            now (cacheO u)).videos).map
          (fun v => { v with isAd := true }))).flatten

/-- Lines 274-279: the start time of a channel's new programmes — the
latest preserved stop time of that channel, but no earlier than now. -/
def lastProgramEndTime (progs : List Programme) (chan : String) (now : ℤ) : ℤ :=
  (progs.filter (fun p => p.channel = chan)).foldl
    (fun acc p => if acc < p.stop then p.stop else acc) now

/-- Lines 266-271: append a channel definition when none exists yet. -/
def ensureChannelDef (defs : List ChannelDef) (cfg : ChannelConfig) : List ChannelDef :=
  if (defs.find? (fun d => d.id = cfg.id)).isSome then defs
  else defs ++ [{ id := cfg.id, name := cfg.name }]

/-- Lines 261-350, one iteration of the channel loop: ensure the channel
definition, compute the start offset and the already-scheduled ids from
the accumulated state, fetch and mix the sources, drop scheduled ids,
order, interleave publicity, and append the generated programmes. -/
def processChannel (fetchO : List Char → Except Unit (Option (List Video)))
    (cacheO : List Char → Option (ℤ × List Video)) (rand choose : Nat → Nat)
    (pools : List (String × PublicityPool)) (days now globalTtl : ℤ)
    (st : EpgFile) (cfg : ChannelConfig) : EpgFile :=
  let defs := ensureChannelDef st.1 cfg
  let lastEnd := lastProgramEndTime st.2 cfg.id now
  let sched := scheduledVideoIds st.2 cfg.id
  let sources := cfg.youtube_channels.map (fun u =>
    (fetch_videos fetchO u cfg.cache (cfg.cache_ttl_hours.getD globalTtl)
      now (cacheO u)).videos)
  let allAvail := mixSources (cfg.mixing_algorithm.getD "concatenate") sources
  let unsched := unscheduledVideos allAvail sched
  let ordered := orderVideos (cfg.sort_order.getD "newest") rand unsched
  let pubs := fetchPublicity fetchO cacheO now globalTtl pools cfg.publicity_pool
  let playlist := interleave_playlist ordered pubs cfg.programs_per_publicity choose
  (defs, st.2 ++ generate_programme_elements cfg.id playlist days now lastEnd)

/-- The full-refresh branch: carry over all channel definitions, filter
the old programmes by refresh strategy, then run the channel loop.
`old = none` models a missing or unparseable existing file. -/
def fullRefresh (fetchO : List Char → Except Unit (Option (List Video)))
    (cacheO : List Char → Option (ℤ × List Video)) (rand choose : Nat → Nat)
    (pools : List (String × PublicityPool)) (all_channels : List ChannelConfig)
    (days now globalTtl : ℤ) (old : Option EpgFile) : EpgFile :=
  let initDefs := match old with | none => [] | some f => f.1
  let initProgs :=
    match old with
    | none => []
    | some f => preserveProgrammes all_channels now f.2
  all_channels.foldl (processChannel fetchO cacheO rand choose pools days now globalTtl)
    (initDefs, initProgs)

/-- `create_epg(config, target_channel_id)` as a transition on the
persisted file.  With a target channel id the body (lines 201-356) is
skipped — only the line-197 print runs — so the file is unchanged; with
no target the full refresh runs and its result is written. -/
def create_epg (fetchO : List Char → Except Unit (Option (List Video)))
    (cacheO : List Char → Option (ℤ × List Video)) (rand choose : Nat → Nat)
    (pools : List (String × PublicityPool)) (all_channels : List ChannelConfig)
    (days now globalTtl : ℤ) (target : Option String) (old : Option EpgFile) :
    Option EpgFile :=
  match target with
  | some _ => old
  | none =>
    some (fullRefresh fetchO cacheO rand choose pools all_channels days now globalTtl old)

/-- C2 (code bug).  A single-channel update leaves the persisted file
exactly as it was — for every target channel id and every previous file
state — because the whole update body sits inside the no-target `else:`
branch.  In particular the target channel's programmes are never
replaced by a newly built timeline, contradicting the claim (and the
dead single-channel code at lines 228 and 248-256 that shows the
intended behavior). -/
theorem C2_single_channel_update_noop
    (fetchO : List Char → Except Unit (Option (List Video)))
    (cacheO : List Char → Option (ℤ × List Video)) (rand choose : Nat → Nat)
    (pools : List (String × PublicityPool)) (all_channels : List ChannelConfig)
    (days now globalTtl : ℤ) (tid : String) (old : Option EpgFile) :
    create_epg fetchO cacheO rand choose pools all_channels days now globalTtl
      (some tid) old = old := rfl

end PseudoTV
